import Mathlib

/-!
# Verification of the biotech-intel-dashboard trending pipeline

Shallow embedding of the social-mention trending pipeline:

* `src/backend/services/reddit.js` — ticker extraction (`extractTickers`),
  mention aggregation (`aggregateMentions`), cache keys of
  `fetchSubredditPosts` and `getTrendingTickers`;
* `src/backend/services/market.js` — trending ranker (`getTrendingStocks`,
  `getDefaultTrendingStocks`);
* `src/backend/yahoo.js` — the `fetchQuote` collaborator (a stub in this
  repository: it always resolves with all price fields `null`).

Modelling conventions:

* Strings of post text are modelled as `List Char`; machine numbers that the
  code only adds, compares and rounds are modelled as `ℚ` (exact arithmetic
  in place of IEEE doubles); `null`/`undefined` fields are `Option`.
* `Math.log10` is not rational-valued, so every definition that uses the
  upvote weight `Math.log10(Math.max(upvotes, 1) + 1)` is parameterised by
  an arbitrary function `log10 : Nat → ℚ` standing for `Math.log10` applied
  to a natural number; the surrounding structure
  (`max(upvotes,1) + 1`, per-occurrence accumulation, rounding) is embedded
  exactly.
* Asynchronous fallible collaborators (`fetchQuote`) are modelled as oracle
  functions `String → Option Quote`, `none` meaning a rejected promise; the
  `Promise.all` fan-out over an array is the corresponding `List.map`, which
  preserves one result slot per input element exactly as `Promise.all` does.
* `Array.prototype.sort` in Node is a stable sort; a stable sort is uniquely
  determined by the comparator preorder, so it is embedded as a stable
  insertion sort (`sortByDesc`) for the comparators `(a, b) => b.k - a.k`
  used by the code.
-/

/-! ## Generic JavaScript semantics helpers -/

/-- JavaScript string truthiness: `null`/`undefined` and the empty string are
falsy. -/
def strTruthy : Option String → Bool
  | none => false
  | some s => !(s.isEmpty)

/-- JavaScript `a || b` on (possibly missing) strings: yields `a` when `a` is
truthy, otherwise `b` (which may itself be falsy). -/
def jsOrS (a b : Option String) : Option String :=
  if strTruthy a then a else b

/-- JavaScript `Math.round(x * 100) / 100` on a (non-NaN) number:
`Math.round` is floor of `x + 1/2`. -/
def round2 (x : ℚ) : ℚ :=
  ((⌊x * 100 + 1 / 2⌋ : ℤ) : ℚ) / 100

/-- Stable insertion of an element `x` into a list sorted descending by
`key`, `x` being an element that occurred *earlier* in the original list
than everything in the target list: `x` passes over `y` only when
`key y > key x`, so among equal keys the earlier element stays first —
exactly the placement a stable sort with comparator `(a, b) => key b - key a`
gives. -/
def insertDesc {α β : Type} [LinearOrder β] (key : α → β) (x : α) : List α → List α
  | [] => [x]
  | y :: ys => if key x < key y then y :: insertDesc key x ys else x :: y :: ys

/-- Stable descending sort by `key`: the embedding of Node's (stable)
`Array.prototype.sort((a, b) => key(b) - key(a))`. -/
def sortByDesc {α β : Type} [LinearOrder β] (key : α → β) : List α → List α
  | [] => []
  | x :: xs => insertDesc key x (sortByDesc key xs)

/-- The first element of a list attaining the maximal `key`, if any. -/
def firstMaxBy {α β : Type} [LinearOrder β] (key : α → β) : List α → Option α
  | [] => none
  | x :: xs =>
    match firstMaxBy key xs with
    | none => some x
    | some m => if key x < key m then some m else some x

/-- Appending an element to a JavaScript `Set` (insertion order, no
duplicates). -/
def insertUniq (l : List String) (x : String) : List String :=
  if x ∈ l then l else l ++ [x]

/-- `Array.from(new Set(xs))`: deduplicate keeping first occurrences, in
insertion order. -/
def setToList (xs : List String) : List String :=
  xs.foldl insertUniq []

/-! ## reddit.js — ticker extraction

The two regexes of `extractTickers` are
`/\$([A-Z]{1,5})\b/g` and `/\b([A-Z]{2,5})\b/g` (no Unicode flag, so
`\w = [A-Za-z0-9_]` and `\b` is the boundary between a `\w` and a
non-`\w` position).

Backtracking analysis used by the embedding below: at a start position the
quantifier `[A-Z]{m,5}` tries successively shorter prefixes of the maximal
uppercase run `r` there; for any length strictly below `min (r.length) 5`
the following character is an uppercase letter, so the trailing `\b` fails.
Hence the regex matches at that position iff `m ≤ r.length ≤ 5` and the
character after the run (if any) is not a word character, and the captured
group is the whole run.  Two such matches can never overlap (every inner
position of a match is preceded by a word character, so the leading `\$`
resp. `\b` fails there), so the set of groups produced by the `exec` loop
with the `g` flag equals the set of per-position matches. -/

/-- `[A-Z]` of the regexes. -/
def isUpperCh (c : Char) : Bool :=
  'A' ≤ c && c ≤ 'Z'

/-- JavaScript `\w` (no Unicode flag): `[A-Za-z0-9_]`. -/
def isWordCh (c : Char) : Bool :=
  isUpperCh c || ('a' ≤ c && c ≤ 'z') || ('0' ≤ c && c ≤ '9') || c == '_'

/-- Maximal uppercase run at the head of the text. -/
def upperRun : List Char → List Char
  | [] => []
  | c :: cs => if isUpperCh c then c :: upperRun cs else []

/-- `\b` after a word character: the next position is end of text or a
non-word character. -/
def boundaryAt : List Char → Bool
  | [] => true
  | c :: _ => !(isWordCh c)

/-- Match of `/\$([A-Z]{1,5})\b/` anchored at the head of the suffix `s`;
returns the captured group. -/
def cashtagAt (s : List Char) : Option (List Char) :=
  match s with
  | '$' :: cs =>
    let r := upperRun cs
    if 1 ≤ r.length && r.length ≤ 5 && boundaryAt (cs.drop r.length) then
      some r
    else
      none
  | _ => none

/-- Match of `([A-Z]{2,5})\b` anchored at the head of the suffix `s` (the
leading `\b` is handled by the caller, which knows the previous character);
returns the captured group. -/
def bareAt (s : List Char) : Option (List Char) :=
  let r := upperRun s
  if 2 ≤ r.length && r.length ≤ 5 && boundaryAt (s.drop r.length) then
    some r
  else
    none

/-- All captured groups of the global cashtag regex `/\$([A-Z]{1,5})\b/g`
over the text (per-position matches; see the overlap analysis above). -/
def cashtagScan : List Char → List (List Char)
  | [] => []
  | c :: rest =>
    (match cashtagAt (c :: rest) with
     | some r => [r]
     | none => []) ++ cashtagScan rest

/-- All captured groups of the global bare-ticker regex `/\b([A-Z]{2,5})\b/g`
over the text; `prevWord` says whether the previous character (if any) is a
word character, which decides the leading `\b`. -/
def bareScanAux (prevWord : Bool) : List Char → List (List Char)
  | [] => []
  | c :: rest =>
    (if prevWord then [] else
      match bareAt (c :: rest) with
      | some r => [r]
      | none => []) ++ bareScanAux (isWordCh c) rest

/-- All bare-ticker captured groups of a text (start of text is a `\b`). -/
def bareScan (text : List Char) : List (List Char) :=
  bareScanAux false text

/-- `EXCLUDED_WORDS` of reddit.js, verbatim (the source `Set` literal lists
`DD` and `IMO` twice; as a set that is the same collection). -/
def EXCLUDED_WORDS : List String :=
  ["A", "I", "AM", "AN", "AND", "ARE", "AS", "AT", "BE", "BY", "CAN", "DO", "FOR",
   "FROM", "HE", "IF", "IN", "IS", "IT", "ME", "MY", "NO", "NOT", "OF", "ON", "OR",
   "OUT", "SO", "THE", "TO", "UP", "US", "WE", "YOU", "ALL", "CEO", "CFO", "CTO",
   "DD", "EDIT", "ELI", "FAQ", "FYI", "IMO", "IPO", "NEW", "NOW", "OLD", "SEC",
   "TL", "USD", "WSB", "YTD", "YOLO", "DD", "TA", "ATH", "EOD", "AH", "PM", "IMO",
   "TLDR", "ETA", "NSFW", "OC", "OP", "PSA", "TIL", "FOMO", "FUD", "HODL", "APE"]

/-- `extractTickers` of reddit.js.  Cashtag matches are added to the `Set`
first (first `while` loop), then bare matches that are not excluded words
and have length between 2 and 5 (second `while` loop); the `Set` keeps
insertion order and drops duplicates. -/
def extractTickers (text : List Char) : List String :=
  if text.isEmpty then [] else
    let cash := (cashtagScan text).map (fun r => String.mk r)
    let bare := ((bareScan text).map (fun r => String.mk r)).filter
      (fun t => !(EXCLUDED_WORDS.contains t) && 2 ≤ t.length && t.length ≤ 5)
    setToList (cash ++ bare)

/-! ## reddit.js — cache keys -/

/-- The cache key of `fetchSubredditPosts`:
the template literal `reddit:SUBREDDIT:LIMIT`. -/
def fetchSubredditPostsKey (subreddit : String) (limit : Nat) : String :=
  "reddit:" ++ subreddit ++ ":" ++ Nat.repr limit

/-- The cache key of `getTrendingTickers`:
the template literal `trending:SUBS` where `SUBS` is
`subreddits.join(',')` — the `limit` parameter of the function does not
occur in the key. -/
def getTrendingTickersKey (subreddits : List String) (limit : Nat) : String :=
  "trending:" ++ String.intercalate "," subreddits

/-! ## reddit.js — mention aggregation -/

/-- A processed post as produced by `fetchSubredditPosts` (the fields that
`aggregateMentions` reads). -/
structure Post where
  title : String
  url : String
  upvotes : Nat
  comments : Nat
  tickers : List String
deriving Repr, DecidableEq

/-- The projection of a post pushed onto `data.posts` (and hence used for
`topPost`) by `aggregateMentions`. -/
structure PostRef where
  title : String
  url : String
  upvotes : Nat
  comments : Nat
deriving Repr, DecidableEq

def Post.toRef (p : Post) : PostRef :=
  ⟨p.title, p.url, p.upvotes, p.comments⟩

/-- The per-occurrence weight
`Math.log10(Math.max(post.upvotes, 1) + 1)`, with `Math.log10` abstracted
as `log10`. -/
def upvoteWeight (log10 : Nat → ℚ) (u : Nat) : ℚ :=
  log10 (Nat.max u 1 + 1)

/-- The value stored in `mentionMap` for one ticker. -/
structure MentionData where
  ticker : String
  count : Nat
  weightedScore : ℚ
  posts : List PostRef
deriving Repr, DecidableEq

/-- One iteration of the inner `post.tickers.forEach` body of
`aggregateMentions`: if the ticker is absent the map gets a fresh
zero entry which is then updated, i.e. an appended
`{count := 1, ...}` entry; if present, the existing entry is updated in
place.  The JavaScript `Map` keeps insertion order, embedded here as an
association list. -/
def addOccurrence (log10 : Nat → ℚ) (p : Post) (t : String) (m : List MentionData) :
    List MentionData :=
  if m.any (fun d => d.ticker == t) then
    m.map (fun d =>
      if d.ticker == t then
        { d with
          count := d.count + 1,
          weightedScore := d.weightedScore + upvoteWeight log10 p.upvotes,
          posts := d.posts ++ [p.toRef] }
      else d)
  else
    m ++ [⟨t, 1, upvoteWeight log10 p.upvotes, [p.toRef]⟩]

/-- The two nested `forEach` loops of `aggregateMentions` building
`mentionMap`, starting from the empty map. -/
def buildMentionMap (log10 : Nat → ℚ) (posts : List Post) : List MentionData :=
  posts.foldl (fun m p => p.tickers.foldl (fun acc t => addOccurrence log10 p t acc) m) []

/-- One element of the array returned by `aggregateMentions`. -/
structure Aggregate where
  ticker : String
  mentions : Nat
  score : ℚ
  topPost : Option PostRef
deriving Repr, DecidableEq

/-- The `.map` body of `aggregateMentions`: `score` is the weighted score
rounded via `Math.round(x * 100) / 100`, and `topPost` the head of
`data.posts` stably sorted by descending upvotes
(`.sort((a, b) => b.upvotes - a.upvotes)[0]`). -/
def toAggregate (d : MentionData) : Aggregate :=
  ⟨d.ticker, d.count, round2 d.weightedScore,
   (sortByDesc (fun r => r.upvotes) d.posts).head?⟩

/-- `aggregateMentions` of reddit.js: build the mention map, convert each
entry, and stably sort descending by `score`
(`.sort((a, b) => b.score - a.score)`). -/
def aggregateMentions (log10 : Nat → ℚ) (posts : List Post) : List Aggregate :=
  sortByDesc (fun a => a.score) ((buildMentionMap log10 posts).map toAggregate)

/-! Specification views of the aggregation, used to state its properties. -/

/-- All `(post, ticker)` occurrences of a post list, in encounter order. -/
def occurrencesOf (posts : List Post) : List (Post × String) :=
  posts.flatMap (fun p => p.tickers.map (fun t => (p, t)))

/-- The posts of the occurrences carrying ticker `t`, in encounter order
(one copy per occurrence). -/
def occsFor (t : String) (occs : List (Post × String)) : List Post :=
  (occs.filter (fun o => o.2 == t)).map (fun o => o.1)

/-- The contributing posts of ticker `t` over a post list. -/
def mentionOccs (t : String) (posts : List Post) : List Post :=
  occsFor t (occurrencesOf posts)

/-- The mention-map entry that ticker `t` should have after processing
`posts` (meaningful when `t` has at least one occurrence). -/
def mkEntry (log10 : Nat → ℚ) (t : String) (posts : List Post) : MentionData :=
  ⟨t, (mentionOccs t posts).length,
   ((mentionOccs t posts).map (fun p => upvoteWeight log10 p.upvotes)).sum,
   (mentionOccs t posts).map Post.toRef⟩

/-- Lookup of a ticker in the mention map. -/
def findEntry (t : String) (m : List MentionData) : Option MentionData :=
  m.find? (fun d => d.ticker == t)

/-- What a base entry (present or absent) for ticker `t` becomes after
absorbing the occurrences carried by the posts `os`. -/
def entryAfter (log10 : Nat → ℚ) (t : String) (base : Option MentionData)
    (os : List Post) : Option MentionData :=
  match base with
  | some d =>
    some { d with
      count := d.count + os.length,
      weightedScore := d.weightedScore + (os.map (fun p => upvoteWeight log10 p.upvotes)).sum,
      posts := d.posts ++ os.map Post.toRef }
  | none =>
    if os.isEmpty then none
    else
      some ⟨t, os.length, (os.map (fun p => upvoteWeight log10 p.upvotes)).sum,
            os.map Post.toRef⟩

/-! ## yahoo.js — the quote collaborator -/

/-- The quote fields that market.js reads.  `none` is JavaScript
`null`/`undefined`. -/
structure Quote where
  longName : Option String
  shortName : Option String
  regularMarketPrice : Option ℚ
  regularMarketChange : Option ℚ
  regularMarketChangePercent : Option ℚ
  regularMarketVolume : Option ℚ
  marketCap : Option ℚ
deriving Repr, DecidableEq

/-- `fetchQuote` of yahoo.js: the function performs no I/O and always
resolves with a fixed object whose `shortName`/`longName` are the symbol
and whose market fields are `null` (the object carries `volume: null` but
no `regularMarketVolume` property, so that read yields `undefined`). -/
def fetchQuote (symbol : String) : Option Quote :=
  some
    { longName := some symbol
      shortName := some symbol
      regularMarketPrice := none
      regularMarketChange := none
      regularMarketChangePercent := none
      regularMarketVolume := none
      marketCap := none }

/-! ## market.js — trending ranker

`getTrendingStocks` is parameterised by the oracle
`fq : String → Option Quote` for the awaited `fetchQuote` calls (`none`
means the promise rejected and the `catch` branch ran) and by the list
`redditTrending` that `getTrendingTickers` resolved with. -/

/-- One element of the arrays built by `getTrendingStocks` and
`getDefaultTrendingStocks`. -/
structure Stock where
  symbol : String
  name : Option String
  price : Option ℚ
  change : Option ℚ
  changePercent : Option ℚ
  volume : Option ℚ
  marketCap : Option ℚ
  mentions : Nat
  socialScore : ℚ
  topPost : Option PostRef
  source : String
deriving Repr, DecidableEq

/-- The `topTickers.map` body of `getTrendingStocks`: on a resolved quote,
the `reddit_yahoo` entry (`name` is
`quote.longName || quote.shortName || item.ticker`); on a rejected fetch,
the `catch` branch's `reddit_only` entry with `null` market fields. -/
def enrich (fq : String → Option Quote) (item : Aggregate) : Stock :=
  match fq item.ticker with
  | some q =>
    { symbol := item.ticker
      name := jsOrS q.longName (jsOrS q.shortName (some item.ticker))
      price := q.regularMarketPrice
      change := q.regularMarketChange
      changePercent := q.regularMarketChangePercent
      volume := q.regularMarketVolume
      marketCap := q.marketCap
      mentions := item.mentions
      socialScore := item.score
      topPost := item.topPost
      source := "reddit_yahoo" }
  | none =>
    { symbol := item.ticker
      name := some item.ticker
      price := none
      change := none
      changePercent := none
      volume := none
      marketCap := none
      mentions := item.mentions
      socialScore := item.score
      topPost := item.topPost
      source := "reddit_only" }

/-- The `Promise.all(topTickers.map(...))` batch: one enriched entry per
candidate, in order. -/
def enrichedStocks (fq : String → Option Quote) (topTickers : List Aggregate) :
    List Stock :=
  topTickers.map (enrich fq)

/-- `defaultSymbols` of `getDefaultTrendingStocks`. -/
def defaultSymbols : List String :=
  ["TSLA", "NVDA", "AAPL", "MSFT", "GOOGL", "AMZN", "META", "AMD", "NFLX", "SPY"]

/-- The entry `getDefaultTrendingStocks` builds for a symbol whose quote
fetch resolved (`name` is `quote.longName || quote.shortName`, with no
symbol fallback on this path). -/
def defaultStock (symbol : String) (q : Quote) : Stock :=
  { symbol := symbol
    name := jsOrS q.longName q.shortName
    price := q.regularMarketPrice
    change := q.regularMarketChange
    changePercent := q.regularMarketChangePercent
    volume := q.regularMarketVolume
    marketCap := q.marketCap
    mentions := 0
    socialScore := 0
    topPost := none
    source := "yahoo_default" }

/-- `getDefaultTrendingStocks` of market.js: map every default symbol to its
entry (or `null` when the fetch rejected), then `.filter(s => s !== null)`.
No price filter is applied on this path. -/
def getDefaultTrendingStocks (fq : String → Option Quote) : List Stock :=
  (defaultSymbols.map (fun symbol => (fq symbol).map (defaultStock symbol))).filterMap id

/-- `getTrendingStocks` of market.js: on an empty `redditTrending`, fall
back to the defaults; otherwise enrich the top 15 candidates, keep the
entries with non-null price (`.filter(stock => stock.price !== null)`), and
stably sort descending by `socialScore`. -/
def getTrendingStocks (fq : String → Option Quote) (redditTrending : List Aggregate) :
    List Stock :=
  if redditTrending.isEmpty then
    getDefaultTrendingStocks fq
  else
    sortByDesc (fun s => s.socialScore)
      ((enrichedStocks fq (redditTrending.take 15)).filter
        (fun s => !(s.price == none)))

/-! ## Helper lemmas: the stable sort and the first maximum -/

theorem perm_insertDesc {α β : Type} [LinearOrder β] (key : α → β) (x : α) :
    ∀ l : List α, (insertDesc key x l).Perm (x :: l)
  | [] => List.Perm.refl _
  | y :: ys => by
    unfold insertDesc
    split
    · exact ((perm_insertDesc key x ys).cons y).trans (List.Perm.swap x y ys)
    · exact List.Perm.refl _

theorem perm_sortByDesc {α β : Type} [LinearOrder β] (key : α → β) :
    ∀ l : List α, (sortByDesc key l).Perm l
  | [] => List.Perm.refl _
  | x :: xs =>
    (perm_insertDesc key x (sortByDesc key xs)).trans ((perm_sortByDesc key xs).cons x)

theorem mem_insertDesc {α β : Type} [LinearOrder β] (key : α → β) (x a : α) (l : List α) :
    a ∈ insertDesc key x l ↔ a = x ∨ a ∈ l := by
  rw [(perm_insertDesc key x l).mem_iff, List.mem_cons]

theorem pairwise_insertDesc {α β : Type} [LinearOrder β] (key : α → β) (x : α) :
    ∀ {l : List α}, l.Pairwise (fun a b => key b ≤ key a) →
      (insertDesc key x l).Pairwise (fun a b => key b ≤ key a)
  | [], _ => by simp [insertDesc]
  | y :: ys, h => by
    rw [List.pairwise_cons] at h
    unfold insertDesc
    split
    · rename_i hk
      rw [List.pairwise_cons]
      refine ⟨fun b hb => ?_, pairwise_insertDesc key x h.2⟩
      rcases (mem_insertDesc key x b ys).1 hb with rfl | hb
      · exact le_of_lt hk
      · exact h.1 b hb
    · rename_i hk
      rw [not_lt] at hk
      rw [List.pairwise_cons]
      refine ⟨fun b hb => ?_, List.pairwise_cons.2 h⟩
      rcases List.mem_cons.1 hb with rfl | hb
      · exact hk
      · exact le_trans (h.1 b hb) hk

theorem pairwise_sortByDesc {α β : Type} [LinearOrder β] (key : α → β) :
    ∀ l : List α, (sortByDesc key l).Pairwise (fun a b => key b ≤ key a)
  | [] => List.Pairwise.nil
  | x :: xs => pairwise_insertDesc key x (pairwise_sortByDesc key xs)

theorem head?_insertDesc_cons {α β : Type} [LinearOrder β] (key : α → β) (x y : α)
    (ys : List α) :
    (insertDesc key x (y :: ys)).head? = some (if key x < key y then y else x) := by
  unfold insertDesc
  split <;> simp_all

theorem head?_sortByDesc {α β : Type} [LinearOrder β] (key : α → β) :
    ∀ l : List α, (sortByDesc key l).head? = firstMaxBy key l
  | [] => rfl
  | x :: xs => by
    have ih := head?_sortByDesc key xs
    unfold sortByDesc firstMaxBy
    cases hs : sortByDesc key xs with
    | nil =>
      rw [← ih, hs]
      rfl
    | cons y ys =>
      rw [← ih, hs]
      show (insertDesc key x (y :: ys)).head? = if key x < key y then some y else some x
      rw [head?_insertDesc_cons]
      split <;> rfl

theorem firstMaxBy_eq_none {α β : Type} [LinearOrder β] (key : α → β) :
    ∀ l : List α, firstMaxBy key l = none ↔ l = []
  | [] => by simp [firstMaxBy]
  | x :: xs => by
    unfold firstMaxBy
    cases h : firstMaxBy key xs with
    | none => simp
    | some m =>
      simp only []
      split <;> simp

theorem firstMaxBy_spec {α β : Type} [LinearOrder β] (key : α → β) :
    ∀ (l : List α) (m : α), firstMaxBy key l = some m →
      ∃ l1 l2, l = l1 ++ m :: l2 ∧ (∀ y ∈ l, key y ≤ key m) ∧ ∀ y ∈ l1, key y < key m
  | [], m => by simp [firstMaxBy]
  | x :: xs, m => by
    unfold firstMaxBy
    cases h : firstMaxBy key xs with
    | none =>
      intro hm
      have hxs : xs = [] := (firstMaxBy_eq_none key xs).1 h
      rw [Option.some_inj] at hm
      subst hm
      subst hxs
      exact ⟨[], [], rfl, by simp, by simp⟩
    | some m' =>
      intro hm
      simp only [] at hm
      obtain ⟨l1, l2, hsplit, hall, hlt⟩ := firstMaxBy_spec key xs m' h
      by_cases hk : key x < key m'
      · rw [if_pos hk, Option.some_inj] at hm
        subst hm
        refine ⟨x :: l1, l2, by rw [hsplit, List.cons_append], fun y hy => ?_, fun y hy => ?_⟩
        · rcases List.mem_cons.1 hy with rfl | hy
          · exact le_of_lt hk
          · exact hall y hy
        · rcases List.mem_cons.1 hy with rfl | hy
          · exact hk
          · exact hlt y hy
      · rw [if_neg hk, Option.some_inj] at hm
        subst hm
        rw [not_lt] at hk
        refine ⟨[], xs, rfl, fun y hy => ?_, by simp⟩
        rcases List.mem_cons.1 hy with rfl | hy
        · exact le_refl _
        · exact le_trans (hall y hy) hk

/-! ## Helper lemmas: the `Set`-to-array conversion -/

theorem mem_foldl_insertUniq :
    ∀ (xs acc : List String) (x : String), x ∈ xs.foldl insertUniq acc ↔ x ∈ acc ∨ x ∈ xs
  | [], acc, x => by simp
  | y :: ys, acc, x => by
    rw [List.foldl_cons, mem_foldl_insertUniq ys (insertUniq acc y) x]
    unfold insertUniq
    by_cases hy : y ∈ acc
    · rw [if_pos hy]
      constructor
      · rintro (h | h)
        · exact Or.inl h
        · exact Or.inr (List.mem_cons_of_mem y h)
      · rintro (h | h)
        · exact Or.inl h
        · rcases List.mem_cons.1 h with rfl | h
          · exact Or.inl hy
          · exact Or.inr h
    · rw [if_neg hy]
      simp only [List.mem_append, List.mem_singleton, List.mem_cons]
      tauto

theorem mem_setToList (xs : List String) (x : String) : x ∈ setToList xs ↔ x ∈ xs := by
  unfold setToList
  rw [mem_foldl_insertUniq]
  simp

/-! ## Claim C5 — exclusion set vs cashtags -/

/-- Claim C5: for every text input, the ticker extractor never includes a
symbol from the exclusion set when that symbol has no cashtag occurrence
(in particular when it occurs only as a bare uppercase token), but always
includes any symbol that occurs as a cashtag; concretely,
`"I like $THE a lot"` yields `THE` while `"the market is up"` does not. -/
theorem extractTickers_exclusion :
    (∀ (text : List Char) (t : String), t ∈ EXCLUDED_WORDS →
        t.data ∉ cashtagScan text → t ∉ extractTickers text)
    ∧ (∀ (text : List Char) (t : String), t.data ∈ cashtagScan text →
        t ∈ extractTickers text)
    ∧ ("THE" ∈ extractTickers ("I like $THE a lot".data)
        ∧ "THE" ∉ extractTickers ("the market is up".data)) := by
  refine ⟨?_, ?_, by decide, by decide⟩
  · intro text t ht hnc hmem
    simp only [extractTickers] at hmem
    split at hmem
    · simp at hmem
    · rw [mem_setToList, List.mem_append] at hmem
      rcases hmem with hmem | hmem
      · obtain ⟨r, hr, hrt⟩ := List.mem_map.1 hmem
        subst hrt
        exact hnc hr
      · have hp := (List.mem_filter.1 hmem).2
        rw [Bool.and_eq_true, Bool.and_eq_true, Bool.not_eq_true'] at hp
        have hmem2 : t ∈ EXCLUDED_WORDS := ht
        rw [← @List.elem_iff _ _ _ t EXCLUDED_WORDS] at hmem2
        have hcontra : EXCLUDED_WORDS.contains t = true := hmem2
        rw [hp.1.1] at hcontra
        exact Bool.false_ne_true hcontra
  · intro text t hc
    have htext : ¬(text.isEmpty = true) := by
      intro h
      rw [List.isEmpty_iff] at h
      subst h
      simp [cashtagScan] at hc
    simp only [extractTickers]
    rw [if_neg htext, mem_setToList, List.mem_append]
    exact Or.inl (List.mem_map.2 ⟨t.data, hc, rfl⟩)

/-- Witness for C5: the theorem applied at a concrete text, discharging the
exclusion-set and no-cashtag hypotheses. -/
theorem extractTickers_exclusion_witness :
    "CEO" ∉ extractTickers ("the CEO said DD".data) :=
  extractTickers_exclusion.1 ("the CEO said DD".data) "CEO" (by decide) (by decide)

/-! ## Claim C2 — cache keys -/

/-- Claim C2 counterexample: two `getTrendingTickers` calls with the same
subreddit list but different post limits (50 vs 100) produce the *same*
cache key, because the key omits the `limit` parameter. -/
theorem getTrendingTickersKey_collision :
    getTrendingTickersKey ["wallstreetbets", "stocks"] 50 =
      getTrendingTickersKey ["wallstreetbets", "stocks"] 100
    ∧ (50 : Nat) ≠ 100 :=
  ⟨rfl, by decide⟩

/-- Claim C2 as amended: `fetchSubredditPosts`' cache key is a composite of
the operation name, the subreddit and the limit — distinct subreddits (same
limit), or the distinct limits 50 and 100 (same subreddit), give distinct
keys — but `getTrendingTickers`' key is a composite of the operation name
and the subreddit list only: it is identical for all limits, so two
differently-limited calls to it share one cache key. -/
theorem cacheKeys_amended :
    (∀ (subs : List String) (l1 l2 : Nat),
        getTrendingTickersKey subs l1 = getTrendingTickersKey subs l2)
    ∧ (∀ sub : String, fetchSubredditPostsKey sub 50 ≠ fetchSubredditPostsKey sub 100)
    ∧ (∀ (s1 s2 : String) (l : Nat),
        fetchSubredditPostsKey s1 l = fetchSubredditPostsKey s2 l → s1 = s2) := by
  refine ⟨fun _ _ _ => rfl, ?_, ?_⟩
  · intro sub h
    have hd := congrArg String.data h
    simp only [fetchSubredditPostsKey, String.data_append] at hd
    have h50 := List.append_cancel_left hd
    exact absurd h50 (by decide)
  · intro s1 s2 l h
    have hd := congrArg String.data h
    simp only [fetchSubredditPostsKey, String.data_append] at hd
    have h1 := List.append_cancel_right hd
    have h2 := List.append_cancel_right h1
    exact String.ext (List.append_cancel_left h2)

/-- Witness for the amended C2: the amended theorem applied at concrete
subreddits and limits. -/
theorem cacheKeys_amended_witness :
    getTrendingTickersKey ["wallstreetbets"] 7 = getTrendingTickersKey ["wallstreetbets"] 9
    ∧ fetchSubredditPostsKey "stocks" 50 ≠ fetchSubredditPostsKey "stocks" 100
    ∧ ("wallstreetbets" : String) = "wallstreetbets" :=
  ⟨cacheKeys_amended.1 ["wallstreetbets"] 7 9,
   cacheKeys_amended.2.1 "stocks",
   cacheKeys_amended.2.2 "wallstreetbets" "wallstreetbets" 50 rfl⟩

/-! ## Helper lemmas: the default-fallback path -/

theorem length_getDefaultTrendingStocks (fq : String → Option Quote) :
    (getDefaultTrendingStocks fq).length
      = (defaultSymbols.filter (fun s => (fq s).isSome)).length := by
  unfold getDefaultTrendingStocks
  generalize defaultSymbols = syms
  induction syms with
  | nil => rfl
  | cons s ss ih =>
    rw [List.map_cons, List.filter_cons, List.filterMap_cons]
    cases h : fq s with
    | some q =>
      simp at ih
      simp [h, ih]
    | none =>
      simp at ih
      simp [h, ih]

/-! ## Claim C1 — the fallback and the non-empty guarantee -/

/-- Claim C1 counterexample: with the repository's own `fetchQuote` (which
always resolves, i.e. quote data is reachable), a non-empty social trending
list still produces an *empty* result, because every resolved quote has a
`null` price and the non-fallback path filters null-price entries out.  So
"the list returned to the caller is non-empty whenever quote data is
reachable" is false as stated. -/
theorem trending_nonempty_counterexample :
    getTrendingStocks fetchQuote [⟨"GME", 2, 3, none⟩] = []
    ∧ (fetchQuote "GME").isSome = true :=
  ⟨by decide, rfl⟩

/-- Claim C1 as amended: if the social-mention source yields zero trending
tickers, `getTrendingStocks` falls back to the fixed default ticker list,
fetches quotes for those, and returns that list; on this fallback path the
result is non-empty whenever at least one default symbol's quote fetch
resolves.  (On the non-fallback path the result can be empty even though
every quote fetch resolves, since null-price entries are filtered out.) -/
theorem trending_fallback_amended :
    ∀ (fq : String → Option Quote) (redditTrending : List Aggregate),
      redditTrending = [] →
      getTrendingStocks fq redditTrending = getDefaultTrendingStocks fq
      ∧ ((∃ sym ∈ defaultSymbols, (fq sym).isSome = true) →
          getTrendingStocks fq redditTrending ≠ []) := by
  intro fq redditTrending h
  subst h
  refine ⟨rfl, ?_⟩
  rintro ⟨sym, hmem, hsome⟩ hnil
  have hlen := length_getDefaultTrendingStocks fq
  rw [show getTrendingStocks fq [] = getDefaultTrendingStocks fq from rfl] at hnil
  rw [hnil] at hlen
  have hzero : (defaultSymbols.filter (fun s => (fq s).isSome)).length = 0 := hlen.symm
  rw [List.length_eq_zero, List.filter_eq_nil_iff] at hzero
  exact hzero sym hmem hsome

/-- Witness for the amended C1: applied with the empty trending list and the
repository's `fetchQuote`, whose fetch for TSLA resolves. -/
theorem trending_fallback_amended_witness :
    getTrendingStocks fetchQuote [] = getDefaultTrendingStocks fetchQuote
    ∧ getTrendingStocks fetchQuote [] ≠ [] :=
  ⟨(trending_fallback_amended fetchQuote [] rfl).1,
   (trending_fallback_amended fetchQuote [] rfl).2 ⟨"TSLA", by decide, rfl⟩⟩

/-! ## Claim C3 — partial failure in the enrichment batch -/

/-- Claim C3: when the quote fetch for one candidate in the batch rejects,
that candidate's entry is still present in the enriched batch with `price`,
`change`, `changePercent` and `marketCap` all null and
`source = "reddit_only"`, while its `mentions` and `socialScore` are kept;
and the batch always has exactly one entry per candidate, so one rejected
fetch never aborts the batch. -/
theorem enrich_failed_quote :
    ∀ (fq : String → Option Quote) (redditTrending : List Aggregate) (item : Aggregate),
      item ∈ redditTrending.take 15 → fq item.ticker = none →
      (enrich fq item).price = none ∧ (enrich fq item).change = none
      ∧ (enrich fq item).changePercent = none ∧ (enrich fq item).marketCap = none
      ∧ (enrich fq item).source = "reddit_only"
      ∧ (enrich fq item).mentions = item.mentions
      ∧ (enrich fq item).socialScore = item.score
      ∧ enrich fq item ∈ enrichedStocks fq (redditTrending.take 15)
      ∧ (enrichedStocks fq (redditTrending.take 15)).length
          = (redditTrending.take 15).length := by
  intro fq trending item hmem hfail
  refine ⟨?_, ?_, ?_, ?_, ?_, ?_, ?_,
    List.mem_map_of_mem _ hmem, by simp [enrichedStocks]⟩
  all_goals simp [enrich, hfail]

/-- Witness for C3: the theorem applied to a one-candidate batch whose only
quote fetch rejects. -/
theorem enrich_failed_quote_witness :
    (enrich (fun _ => none) (⟨"GME", 2, 3, none⟩ : Aggregate)).source = "reddit_only" :=
  (enrich_failed_quote (fun _ => none) [⟨"GME", 2, 3, none⟩] ⟨"GME", 2, 3, none⟩
    (by decide) rfl).2.2.2.2.1

/-! ## Claim C4 — the final filter and sort of the non-fallback path -/

/-- Claim C4: on the non-fallback path the returned list consists exactly
(up to the stable reordering of the sort) of the enriched entries whose
price is non-null, is sorted in descending `socialScore` order, and is
empty — with no exception — when the quote fetch fails for every
candidate. -/
theorem trending_filter_sort :
    ∀ (fq : String → Option Quote) (redditTrending : List Aggregate),
      redditTrending ≠ [] →
      (getTrendingStocks fq redditTrending).Perm
          ((enrichedStocks fq (redditTrending.take 15)).filter
            (fun s => !(s.price == none)))
      ∧ (getTrendingStocks fq redditTrending).Pairwise
          (fun a b => b.socialScore ≤ a.socialScore)
      ∧ ((∀ item ∈ redditTrending.take 15, fq item.ticker = none) →
          getTrendingStocks fq redditTrending = []) := by
  intro fq trending hne
  have hif : getTrendingStocks fq trending
      = sortByDesc (fun s => s.socialScore)
          ((enrichedStocks fq (trending.take 15)).filter
            (fun s => !(s.price == none))) := by
    unfold getTrendingStocks
    rw [if_neg]
    intro h
    exact hne (List.isEmpty_iff.1 h)
  refine ⟨?_, ?_, ?_⟩
  · rw [hif]
    exact perm_sortByDesc _ _
  · rw [hif]
    exact pairwise_sortByDesc _ _
  · intro hall
    rw [hif]
    have hnilf : (enrichedStocks fq (trending.take 15)).filter
        (fun s => !(s.price == none)) = [] := by
      rw [List.filter_eq_nil_iff]
      intro s hs
      simp only [enrichedStocks] at hs
      obtain ⟨item, hitem, rfl⟩ := List.mem_map.1 hs
      have hfail := hall item hitem
      simp [enrich, hfail]
    rw [hnilf]
    rfl

/-- Witness for C4: a one-candidate batch whose only quote fetch rejects
yields the empty trending list. -/
theorem trending_filter_sort_witness :
    getTrendingStocks (fun _ => none) [(⟨"GME", 2, 3, none⟩ : Aggregate)] = [] :=
  (trending_filter_sort (fun _ => none) [⟨"GME", 2, 3, none⟩] (by decide)).2.2
    (fun _ _ => rfl)

/-! ## Claim C10 — fields and filtering of the default-fallback path -/

/-- Claim C10: on the default-fallback path every returned entry has
`mentions = 0`, `socialScore = 0`, `topPost = null` and
`source = "yahoo_default"`; the null-price filter is not applied — any
symbol whose quote fetch resolved yields an entry (its `price` may be
null) — and exactly the symbols whose fetch rejected are dropped. -/
theorem defaultTrending_fields :
    ∀ fq : String → Option Quote,
      getTrendingStocks fq [] = getDefaultTrendingStocks fq
      ∧ (∀ s ∈ getDefaultTrendingStocks fq,
          s.mentions = 0 ∧ s.socialScore = 0 ∧ s.topPost = none
            ∧ s.source = "yahoo_default")
      ∧ (∀ (sym : String) (q : Quote), sym ∈ defaultSymbols → fq sym = some q →
          defaultStock sym q ∈ getDefaultTrendingStocks fq)
      ∧ (getDefaultTrendingStocks fq).length
          = (defaultSymbols.filter (fun s => (fq s).isSome)).length := by
  intro fq
  refine ⟨rfl, ?_, ?_, length_getDefaultTrendingStocks fq⟩
  · intro s hs
    unfold getDefaultTrendingStocks at hs
    rw [List.mem_filterMap] at hs
    obtain ⟨o, ho, hid⟩ := hs
    rw [List.mem_map] at ho
    obtain ⟨sym, hsym, hstep⟩ := ho
    cases hq : fq sym with
    | some q =>
      rw [hq, Option.map_some'] at hstep
      rw [← hstep] at hid
      have hso : defaultStock sym q = s := Option.some_inj.1 hid
      rw [← hso]
      exact ⟨rfl, rfl, rfl, rfl⟩
    | none =>
      rw [hq, Option.map_none'] at hstep
      rw [← hstep] at hid
      exact absurd hid (by simp)
  · intro sym q hsym hq
    unfold getDefaultTrendingStocks
    rw [List.mem_filterMap]
    refine ⟨some (defaultStock sym q), List.mem_map.2 ⟨sym, hsym, ?_⟩, rfl⟩
    rw [hq, Option.map_some']

/-- Witness for C10: the theorem applied with the repository's `fetchQuote`;
the TSLA entry (with null price) is returned on the fallback path. -/
theorem defaultTrending_fields_witness :
    defaultStock "TSLA" ⟨some "TSLA", some "TSLA", none, none, none, none, none⟩
      ∈ getDefaultTrendingStocks fetchQuote :=
  (defaultTrending_fields fetchQuote).2.2.1 "TSLA"
    ⟨some "TSLA", some "TSLA", none, none, none, none, none⟩ (by decide) rfl

/-! ## Helper lemmas: the mention map -/

theorem comp_ticker_update (log10 : Nat → ℚ) (p : Post) (s t : String) :
    ((fun d : MentionData => d.ticker == t) ∘ (fun d : MentionData =>
        if d.ticker == s then
          { d with
            count := d.count + 1,
            weightedScore := d.weightedScore + upvoteWeight log10 p.upvotes,
            posts := d.posts ++ [p.toRef] }
        else d))
      = (fun d : MentionData => d.ticker == t) := by
  funext d
  simp only [Function.comp_apply]
  split <;> rfl

theorem map_ticker_addOccurrence (log10 : Nat → ℚ) (p : Post) (t : String)
    (m : List MentionData) :
    (addOccurrence log10 p t m).map (fun d => d.ticker) =
      if m.any (fun d => d.ticker == t) then m.map (fun d => d.ticker)
      else m.map (fun d => d.ticker) ++ [t] := by
  unfold addOccurrence
  split
  · rw [List.map_map]
    refine List.map_congr_left ?_
    intro d _
    simp only [Function.comp_apply]
    split <;> rfl
  · rw [List.map_append]
    rfl

theorem nodup_ticker_addOccurrence (log10 : Nat → ℚ) (p : Post) (t : String)
    (m : List MentionData) (h : (m.map (fun d => d.ticker)).Nodup) :
    ((addOccurrence log10 p t m).map (fun d => d.ticker)).Nodup := by
  rw [map_ticker_addOccurrence]
  split
  · exact h
  · rename_i hany
    rw [List.nodup_append]
    refine ⟨h, List.nodup_singleton t, ?_⟩
    intro x hx hx1
    rw [List.mem_singleton] at hx1
    subst hx1
    rw [List.mem_map] at hx
    obtain ⟨d, hd, hdt⟩ := hx
    exact hany (List.any_eq_true.2 ⟨d, hd, by simp [hdt]⟩)

theorem findEntry_addOccurrence_found (log10 : Nat → ℚ) (p : Post) (t : String)
    (m : List MentionData) (d : MentionData) (hd : findEntry t m = some d) :
    findEntry t (addOccurrence log10 p t m) =
      some { d with
        count := d.count + 1,
        weightedScore := d.weightedScore + upvoteWeight log10 p.upvotes,
        posts := d.posts ++ [p.toRef] } := by
  unfold findEntry at hd ⊢
  have hmem := List.mem_of_find?_eq_some hd
  have hpdf := @List.find?_some _ (fun x : MentionData => x.ticker == t) d m hd
  have hany : m.any (fun x => x.ticker == t) = true :=
    List.any_eq_true.2 ⟨d, hmem, hpdf⟩
  unfold addOccurrence
  rw [if_pos hany, List.find?_map, comp_ticker_update, hd, Option.map_some']
  rw [if_pos hpdf]

theorem findEntry_addOccurrence_missing (log10 : Nat → ℚ) (p : Post) (t : String)
    (m : List MentionData) (hd : findEntry t m = none) :
    findEntry t (addOccurrence log10 p t m) =
      some ⟨t, 1, upvoteWeight log10 p.upvotes, [p.toRef]⟩ := by
  unfold findEntry at hd ⊢
  have hany : ¬(m.any (fun x => x.ticker == t) = true) := by
    intro h
    obtain ⟨x, hx, hpx⟩ := List.any_eq_true.1 h
    rw [List.find?_eq_none] at hd
    exact hd x hx hpx
  unfold addOccurrence
  rw [if_neg hany, List.find?_append, hd, Option.none_or]
  simp [List.find?_cons]

theorem findEntry_addOccurrence_ne (log10 : Nat → ℚ) (p : Post) (s t : String)
    (m : List MentionData) (hts : t ≠ s) :
    findEntry t (addOccurrence log10 p s m) = findEntry t m := by
  unfold findEntry addOccurrence
  by_cases hany : m.any (fun x => x.ticker == s) = true
  · rw [if_pos hany, List.find?_map, comp_ticker_update]
    cases hd : List.find? (fun x => x.ticker == t) m with
    | none => rfl
    | some d =>
      rw [Option.map_some']
      have hpd := List.find?_some hd
      rw [beq_iff_eq] at hpd
      have hne : ¬((d.ticker == s) = true) := by
        rw [hpd]
        simp only [beq_iff_eq]
        exact hts
      rw [if_neg hne]
  · rw [if_neg hany, List.find?_append]
    have h1 : List.find?
        (fun x => x.ticker == t)
        [(⟨s, 1, upvoteWeight log10 p.upvotes, [p.toRef]⟩ : MentionData)] = none := by
      rw [List.find?_eq_none]
      intro x hx
      rw [List.mem_singleton] at hx
      subst hx
      simp only [beq_iff_eq]
      exact fun h => hts h.symm
    rw [h1, Option.or_none]

theorem occsFor_cons (t : String) (o : Post × String) (rest : List (Post × String)) :
    occsFor t (o :: rest) =
      if o.2 == t then o.1 :: occsFor t rest else occsFor t rest := by
  unfold occsFor
  rw [List.filter_cons]
  split <;> simp

theorem entryAfter_nil (log10 : Nat → ℚ) (t : String) (base : Option MentionData) :
    entryAfter log10 t base [] = base := by
  cases base with
  | none => rfl
  | some d =>
    cases d with
    | mk tk c w ps => simp [entryAfter]

theorem entryAfter_cons_some (log10 : Nat → ℚ) (t : String) (p : Post) (os : List Post)
    (d : MentionData) :
    entryAfter log10 t
      (some { d with
        count := d.count + 1,
        weightedScore := d.weightedScore + upvoteWeight log10 p.upvotes,
        posts := d.posts ++ [p.toRef] }) os
      = entryAfter log10 t (some d) (p :: os) := by
  cases d with
  | mk tk c w ps =>
    simp only [entryAfter, Option.some_inj, MentionData.mk.injEq, List.length_cons,
      List.map_cons, List.sum_cons, List.append_assoc, List.singleton_append]
    and_intros <;> first | rfl | trivial | omega | ring

theorem entryAfter_cons_none (log10 : Nat → ℚ) (t : String) (p : Post) (os : List Post) :
    entryAfter log10 t (some ⟨t, 1, upvoteWeight log10 p.upvotes, [p.toRef]⟩) os
      = entryAfter log10 t none (p :: os) := by
  simp only [entryAfter, List.isEmpty_cons, Bool.false_eq_true, if_false,
    Option.some_inj, MentionData.mk.injEq, List.length_cons,
    List.map_cons, List.sum_cons, List.singleton_append]
  and_intros <;> first | rfl | trivial | omega | ring

theorem foldl_addOccurrence_posts (log10 : Nat → ℚ) :
    ∀ (posts : List Post) (acc : List MentionData),
      posts.foldl (fun m p => p.tickers.foldl (fun a t => addOccurrence log10 p t a) m) acc
        = (occurrencesOf posts).foldl (fun m o => addOccurrence log10 o.1 o.2 m) acc
  | [], acc => rfl
  | p :: rest, acc => by
    rw [List.foldl_cons, foldl_addOccurrence_posts log10 rest]
    unfold occurrencesOf
    rw [List.flatMap_cons, List.foldl_append, List.foldl_map]

theorem nodup_ticker_foldl (log10 : Nat → ℚ) :
    ∀ (occs : List (Post × String)) (acc : List MentionData),
      ((acc.map (fun d => d.ticker)).Nodup) →
      (((occs.foldl (fun m o => addOccurrence log10 o.1 o.2 m) acc).map
          (fun d => d.ticker)).Nodup)
  | [], _, h => h
  | o :: rest, acc, h => by
    rw [List.foldl_cons]
    exact nodup_ticker_foldl log10 rest _ (nodup_ticker_addOccurrence _ _ _ _ h)

theorem findEntry_foldl (log10 : Nat → ℚ) :
    ∀ (occs : List (Post × String)) (acc : List MentionData) (t : String),
      ((acc.map (fun d => d.ticker)).Nodup) →
      findEntry t (occs.foldl (fun m o => addOccurrence log10 o.1 o.2 m) acc)
        = entryAfter log10 t (findEntry t acc) (occsFor t occs)
  | [], acc, t, _ => by
    rw [List.foldl_nil]
    show findEntry t acc = entryAfter log10 t (findEntry t acc) (occsFor t [])
    have h0 : occsFor t [] = [] := rfl
    rw [h0, entryAfter_nil]
  | o :: rest, acc, t, h => by
    rw [List.foldl_cons,
      findEntry_foldl log10 rest _ t (nodup_ticker_addOccurrence _ _ _ _ h),
      occsFor_cons]
    by_cases ht : o.2 = t
    · rw [if_pos (beq_iff_eq.2 ht)]
      subst ht
      cases hfe : findEntry o.2 acc with
      | some d =>
        rw [findEntry_addOccurrence_found log10 o.1 o.2 acc d hfe,
          entryAfter_cons_some]
      | none =>
        rw [findEntry_addOccurrence_missing log10 o.1 o.2 acc hfe,
          entryAfter_cons_none]
    · rw [if_neg (fun hb => ht (beq_iff_eq.1 hb)),
        findEntry_addOccurrence_ne log10 o.1 o.2 t acc (fun he => ht he.symm)]

theorem findEntry_buildMentionMap (log10 : Nat → ℚ) (posts : List Post) (t : String) :
    findEntry t (buildMentionMap log10 posts)
      = entryAfter log10 t none (mentionOccs t posts) := by
  unfold buildMentionMap
  rw [foldl_addOccurrence_posts, findEntry_foldl log10 _ [] t (by simp)]
  rfl

theorem nodup_ticker_buildMentionMap (log10 : Nat → ℚ) (posts : List Post) :
    ((buildMentionMap log10 posts).map (fun d => d.ticker)).Nodup := by
  unfold buildMentionMap
  rw [foldl_addOccurrence_posts]
  exact nodup_ticker_foldl log10 _ [] (by simp)

theorem findEntry_of_mem :
    ∀ (m : List MentionData) (d : MentionData),
      ((m.map (fun x => x.ticker)).Nodup) → d ∈ m → findEntry d.ticker m = some d
  | [], d, _, hd => absurd hd (List.not_mem_nil d)
  | e :: rest, d, hnd, hd => by
    unfold findEntry
    rw [List.find?_cons]
    rcases List.mem_cons.1 hd with rfl | hd2
    · simp
    · have hne : (e.ticker == d.ticker) = false := by
        rw [List.map_cons, List.nodup_cons] at hnd
        have hdt : d.ticker ∈ rest.map (fun x => x.ticker) :=
          List.mem_map_of_mem _ hd2
        rw [Bool.eq_false_iff]
        intro hb
        exact hnd.1 (by rw [beq_iff_eq.1 hb]; exact hdt)
      rw [hne]
      have hnd2 : ((rest.map (fun x => x.ticker)).Nodup) := by
        rw [List.map_cons, List.nodup_cons] at hnd
        exact hnd.2
      exact findEntry_of_mem rest d hnd2 hd2

theorem mem_buildMentionMap_eq (log10 : Nat → ℚ) (posts : List Post) (d : MentionData)
    (hd : d ∈ buildMentionMap log10 posts) :
    d = mkEntry log10 d.ticker posts ∧ mentionOccs d.ticker posts ≠ [] := by
  have h1 := findEntry_of_mem _ d (nodup_ticker_buildMentionMap log10 posts) hd
  rw [findEntry_buildMentionMap] at h1
  simp only [entryAfter] at h1
  by_cases hemp : (mentionOccs d.ticker posts).isEmpty = true
  · rw [if_pos hemp] at h1
    exact absurd h1 (by simp)
  · rw [if_neg hemp] at h1
    refine ⟨?_, fun h => hemp (by rw [h]; rfl)⟩
    have h2 := Option.some_inj.1 h1
    unfold mkEntry
    exact h2.symm

theorem ticker_mem_buildMentionMap (log10 : Nat → ℚ) (posts : List Post) (t : String) :
    t ∈ (buildMentionMap log10 posts).map (fun d => d.ticker)
      ↔ mentionOccs t posts ≠ [] := by
  constructor
  · intro h
    obtain ⟨d, hd, hdt⟩ := List.mem_map.1 h
    subst hdt
    exact (mem_buildMentionMap_eq log10 posts d hd).2
  · intro h
    have h1 := findEntry_buildMentionMap log10 posts t
    simp only [entryAfter] at h1
    rw [if_neg (fun hh => h (List.isEmpty_iff.1 hh))] at h1
    unfold findEntry at h1
    exact List.mem_map.2 ⟨_, List.mem_of_find?_eq_some h1, rfl⟩

theorem sum_count_update :
    ∀ (m : List MentionData) (log10 : Nat → ℚ) (p : Post) (t : String),
      ((m.map (fun x => x.ticker)).Nodup) →
      m.any (fun x => x.ticker == t) = true →
      ((m.map (fun d =>
          if d.ticker == t then
            { d with
              count := d.count + 1,
              weightedScore := d.weightedScore + upvoteWeight log10 p.upvotes,
              posts := d.posts ++ [p.toRef] }
          else d)).map (fun d => d.count)).sum
        = ((m.map (fun d => d.count)).sum) + 1
  | [], _, _, _, _, hany => by simp at hany
  | e :: rest, log10, p, t, hnd, hany => by
    rw [List.map_cons, List.nodup_cons] at hnd
    by_cases he : (e.ticker == t) = true
    · rw [List.map_cons, if_pos he]
      have htail : (rest.map (fun d =>
          if d.ticker == t then
            { d with
              count := d.count + 1,
              weightedScore := d.weightedScore + upvoteWeight log10 p.upvotes,
              posts := d.posts ++ [p.toRef] }
          else d)) = rest := by
        have hrest : ∀ x ∈ rest, ¬((x.ticker == t) = true) := by
          intro x hx hb
          refine hnd.1 ?_
          rw [beq_iff_eq.1 he, ← beq_iff_eq.1 hb]
          exact List.mem_map_of_mem _ hx
        rw [List.map_congr_left (fun x hx => if_neg (hrest x hx)), List.map_id']
      rw [htail]
      simp only [List.map_cons, List.sum_cons]
      omega
    · rw [List.map_cons, if_neg he]
      have hany2 : rest.any (fun x => x.ticker == t) = true := by
        rw [List.any_cons, Bool.or_eq_true] at hany
        rcases hany with hany | hany
        · exact absurd hany he
        · exact hany
      have ih := sum_count_update rest log10 p t hnd.2 hany2
      simp only [List.map_cons, List.sum_cons]
      omega

theorem sum_count_addOccurrence (log10 : Nat → ℚ) (p : Post) (t : String)
    (m : List MentionData) (hnd : (m.map (fun x => x.ticker)).Nodup) :
    ((addOccurrence log10 p t m).map (fun d => d.count)).sum
      = ((m.map (fun d => d.count)).sum) + 1 := by
  unfold addOccurrence
  by_cases hany : m.any (fun d => d.ticker == t) = true
  · rw [if_pos hany]
    exact sum_count_update m log10 p t hnd hany
  · rw [if_neg hany]
    simp

theorem sum_count_foldl (log10 : Nat → ℚ) :
    ∀ (occs : List (Post × String)) (acc : List MentionData),
      ((acc.map (fun x => x.ticker)).Nodup) →
      (((occs.foldl (fun m o => addOccurrence log10 o.1 o.2 m) acc).map
          (fun d => d.count)).sum)
        = ((acc.map (fun d => d.count)).sum) + occs.length
  | [], _, _ => by simp
  | o :: rest, acc, h => by
    rw [List.foldl_cons,
      sum_count_foldl log10 rest _ (nodup_ticker_addOccurrence _ _ _ _ h),
      sum_count_addOccurrence log10 o.1 o.2 acc h, List.length_cons]
    omega

theorem sum_count_buildMentionMap (log10 : Nat → ℚ) (posts : List Post) :
    ((buildMentionMap log10 posts).map (fun d => d.count)).sum
      = (occurrencesOf posts).length := by
  unfold buildMentionMap
  rw [foldl_addOccurrence_posts, sum_count_foldl log10 _ [] (by simp)]
  simp

theorem mem_aggregateMentions (log10 : Nat → ℚ) (posts : List Post) (e : Aggregate) :
    e ∈ aggregateMentions log10 posts
      ↔ ∃ d ∈ buildMentionMap log10 posts, toAggregate d = e := by
  unfold aggregateMentions
  rw [(perm_sortByDesc _ _).mem_iff, List.mem_map]

/-! ## Claim C6 — mention-count conservation and ticker uniqueness -/

/-- Claim C6: for every non-empty post sequence, the sum of the mention
counts over all aggregates equals the total number of `(post, ticker)`
occurrences of the input, and each distinct ticker appears in exactly one
aggregate (the output ticker list has no duplicates, and it carries exactly
the tickers with at least one occurrence). -/
theorem aggregateMentions_mention_sum :
    ∀ (log10 : Nat → ℚ) (posts : List Post), posts ≠ [] →
      ((aggregateMentions log10 posts).map (fun a => a.mentions)).sum
          = (occurrencesOf posts).length
      ∧ ((aggregateMentions log10 posts).map (fun a => a.ticker)).Nodup
      ∧ ∀ t, (t ∈ (aggregateMentions log10 posts).map (fun a => a.ticker)
          ↔ mentionOccs t posts ≠ []) := by
  intro log10 posts _
  have hperm : (aggregateMentions log10 posts).Perm
      ((buildMentionMap log10 posts).map toAggregate) := perm_sortByDesc _ _
  refine ⟨?_, ?_, ?_⟩
  · have h1 := (hperm.map (fun a => a.mentions)).sum_eq
    rw [h1, List.map_map]
    exact sum_count_buildMentionMap log10 posts
  · have h2 := (hperm.map (fun a => a.ticker)).nodup_iff
    rw [h2, List.map_map]
    exact nodup_ticker_buildMentionMap log10 posts
  · intro t
    have h3 := (hperm.map (fun a => a.ticker)).mem_iff (a := t)
    rw [h3, List.map_map]
    exact ticker_mem_buildMentionMap log10 posts t

/-- Witness for C6: the theorem applied to a concrete non-empty post list. -/
theorem aggregateMentions_mention_sum_witness :
    ((aggregateMentions (fun n => (n : ℚ))
        [⟨"a", "u", 5, 2, ["GME", "TSLA"]⟩, ⟨"b", "v", 9, 1, ["GME"]⟩]).map
      (fun a => a.mentions)).sum
      = (occurrencesOf
          [⟨"a", "u", 5, 2, ["GME", "TSLA"]⟩, ⟨"b", "v", 9, 1, ["GME"]⟩]).length :=
  (aggregateMentions_mention_sum (fun n => (n : ℚ))
    [⟨"a", "u", 5, 2, ["GME", "TSLA"]⟩, ⟨"b", "v", 9, 1, ["GME"]⟩] (by decide)).1

/-! ## Claim C7 — the weighted score -/

/-- Claim C7: for every aggregate in the output, its externally visible
score is the sum of the per-occurrence upvote weights
`log10(max(upvotes, 1) + 1)` over the occurrences of its ticker, rounded to
2 decimal places (`Math.round(x * 100) / 100`); `log10` is the abstracted
`Math.log10`, and `upvoteWeight log10 u = log10 (max u 1 + 1)`. -/
theorem aggregateMentions_score :
    ∀ (log10 : Nat → ℚ) (posts : List Post) (e : Aggregate),
      e ∈ aggregateMentions log10 posts →
      e.score = round2 (((mentionOccs e.ticker posts).map
        (fun p => upvoteWeight log10 p.upvotes)).sum) := by
  intro log10 posts e he
  rw [mem_aggregateMentions] at he
  obtain ⟨d, hd, rfl⟩ := he
  have h1 := (mem_buildMentionMap_eq log10 posts d hd).1
  exact congrArg round2 (congrArg MentionData.weightedScore h1)


/-- Concrete evaluation of a one-post aggregation run, shared by witnesses. -/
theorem aggregate_example_eval :
    aggregateMentions (fun _ => (0 : ℚ)) [⟨"a", "u", 3, 0, ["GME"]⟩]
      = [⟨"GME", 1, 0, some ⟨"a", "u", 3, 0⟩⟩] := by
  simp [aggregateMentions, buildMentionMap, addOccurrence, upvoteWeight, toAggregate,
    sortByDesc, insertDesc, round2, Post.toRef]
  norm_num

/-- Witness for C7: the theorem applied at a concrete aggregation run. -/
theorem aggregateMentions_score_witness :
    (⟨"GME", 1, 0, some ⟨"a", "u", 3, 0⟩⟩ : Aggregate).score
      = round2 (((mentionOccs "GME" [⟨"a", "u", 3, 0, ["GME"]⟩]).map
          (fun p => upvoteWeight (fun _ => (0 : ℚ)) p.upvotes)).sum) :=
  aggregateMentions_score (fun _ => (0 : ℚ)) [⟨"a", "u", 3, 0, ["GME"]⟩]
    ⟨"GME", 1, 0, some ⟨"a", "u", 3, 0⟩⟩
    (by rw [aggregate_example_eval]; exact List.mem_singleton_self _)

/-! ## Claim C8 — the top post -/

/-- Claim C8: for every aggregate in the output, `topPost` is a contributing
post with the maximum upvote count among the posts mentioning its ticker,
and among those it is the first in input-encounter order (every strictly
earlier contribution has strictly fewer upvotes). -/
theorem aggregateMentions_topPost :
    ∀ (log10 : Nat → ℚ) (posts : List Post) (e : Aggregate),
      e ∈ aggregateMentions log10 posts →
      ∃ r l1 l2,
        e.topPost = some r
        ∧ (mentionOccs e.ticker posts).map Post.toRef = l1 ++ r :: l2
        ∧ (∀ y ∈ (mentionOccs e.ticker posts).map Post.toRef,
            y.upvotes ≤ r.upvotes)
        ∧ ∀ y ∈ l1, y.upvotes < r.upvotes := by
  intro log10 posts e he
  rw [mem_aggregateMentions] at he
  obtain ⟨d, hd, rfl⟩ := he
  obtain ⟨h1, hne⟩ := mem_buildMentionMap_eq log10 posts d hd
  have hticker : (toAggregate d).ticker = d.ticker := rfl
  have hposts : d.posts = (mentionOccs d.ticker posts).map Post.toRef :=
    congrArg MentionData.posts h1
  have htp : (toAggregate d).topPost
      = firstMaxBy (fun r : PostRef => r.upvotes) d.posts := by
    show (sortByDesc (fun r : PostRef => r.upvotes) d.posts).head? = _
    exact head?_sortByDesc _ _
  have hner : d.posts ≠ [] := by
    rw [hposts]
    intro hcon
    exact hne (List.map_eq_nil.1 hcon)
  obtain ⟨r, hr⟩ : ∃ r, firstMaxBy (fun x : PostRef => x.upvotes) d.posts = some r := by
    cases hh : firstMaxBy (fun x : PostRef => x.upvotes) d.posts with
    | none => exact absurd ((firstMaxBy_eq_none _ _).1 hh) hner
    | some r => exact ⟨r, rfl⟩
  obtain ⟨l1, l2, hsplit, hall, hlt⟩ := firstMaxBy_spec _ d.posts r hr
  refine ⟨r, l1, l2, ?_, ?_, ?_, hlt⟩
  · rw [htp, hr]
  · rw [hticker, ← hposts]
    exact hsplit
  · rw [hticker, ← hposts]
    exact hall

/-- Witness for C8: the theorem applied at a concrete aggregation run. -/
theorem aggregateMentions_topPost_witness :
    ∃ r l1 l2,
      (⟨"GME", 1, 0, some ⟨"a", "u", 3, 0⟩⟩ : Aggregate).topPost = some r
      ∧ (mentionOccs "GME" [⟨"a", "u", 3, 0, ["GME"]⟩]).map Post.toRef = l1 ++ r :: l2
      ∧ (∀ y ∈ (mentionOccs "GME" [⟨"a", "u", 3, 0, ["GME"]⟩]).map Post.toRef,
          y.upvotes ≤ r.upvotes)
      ∧ ∀ y ∈ l1, y.upvotes < r.upvotes :=
  aggregateMentions_topPost (fun _ => (0 : ℚ)) [⟨"a", "u", 3, 0, ["GME"]⟩]
    ⟨"GME", 1, 0, some ⟨"a", "u", 3, 0⟩⟩
    (by rw [aggregate_example_eval]; exact List.mem_singleton_self _)

/-! ## Claim C9 — permutation invariance -/

/-- Claim C9: permuting the input posts leaves the set of output tickers
and, per ticker, the mention count and the rounded weighted score
unchanged (only `topPost` tie-breaking may depend on order). -/
theorem aggregateMentions_permutation :
    ∀ (log10 : Nat → ℚ) (posts posts' : List Post), posts.Perm posts' →
      ((aggregateMentions log10 posts).map (fun a => a.ticker)).Perm
          ((aggregateMentions log10 posts').map (fun a => a.ticker))
      ∧ ∀ e ∈ aggregateMentions log10 posts, ∀ e' ∈ aggregateMentions log10 posts',
          e.ticker = e'.ticker → e.mentions = e'.mentions ∧ e.score = e'.score := by
  intro log10 posts posts' hp
  have hocc : ∀ t : String, (mentionOccs t posts).Perm (mentionOccs t posts') := by
    intro t
    unfold mentionOccs occsFor occurrencesOf
    exact ((hp.flatMap_right _).filter _).map _
  constructor
  · have h1 : ((aggregateMentions log10 posts).map (fun a => a.ticker)).Perm
        ((buildMentionMap log10 posts).map (fun d => d.ticker)) := by
      have h := (perm_sortByDesc (fun a : Aggregate => a.score)
        ((buildMentionMap log10 posts).map toAggregate)).map (fun a => a.ticker)
      rw [List.map_map] at h
      exact h
    have h2 : ((aggregateMentions log10 posts').map (fun a => a.ticker)).Perm
        ((buildMentionMap log10 posts').map (fun d => d.ticker)) := by
      have h := (perm_sortByDesc (fun a : Aggregate => a.score)
        ((buildMentionMap log10 posts').map toAggregate)).map (fun a => a.ticker)
      rw [List.map_map] at h
      exact h
    refine h1.trans (List.Perm.trans ?_ h2.symm)
    rw [List.perm_ext_iff_of_nodup (nodup_ticker_buildMentionMap _ _)
      (nodup_ticker_buildMentionMap _ _)]
    intro t
    rw [ticker_mem_buildMentionMap, ticker_mem_buildMentionMap]
    constructor
    · intro h hnil
      refine h (List.length_eq_zero.1 ?_)
      rw [(hocc t).length_eq, hnil, List.length_nil]
    · intro h hnil
      refine h (List.length_eq_zero.1 ?_)
      rw [← (hocc t).length_eq, hnil, List.length_nil]
  · intro e he e' he' ht
    rw [mem_aggregateMentions] at he he'
    obtain ⟨d, hd, rfl⟩ := he
    obtain ⟨d', hd', rfl⟩ := he'
    have h1 := (mem_buildMentionMap_eq log10 posts d hd).1
    have h2 := (mem_buildMentionMap_eq log10 posts' d' hd').1
    have ht2 : d.ticker = d'.ticker := ht
    constructor
    · show d.count = d'.count
      have hc := congrArg MentionData.count h1
      have hc' := congrArg MentionData.count h2
      rw [hc, hc']
      show (mentionOccs d.ticker posts).length
          = (mentionOccs d'.ticker posts').length
      rw [ht2]
      exact (hocc d'.ticker).length_eq
    · show round2 d.weightedScore = round2 d'.weightedScore
      have hs := congrArg MentionData.weightedScore h1
      have hs' := congrArg MentionData.weightedScore h2
      rw [hs, hs']
      show round2 (((mentionOccs d.ticker posts).map
            (fun p => upvoteWeight log10 p.upvotes)).sum)
          = round2 (((mentionOccs d'.ticker posts').map
            (fun p => upvoteWeight log10 p.upvotes)).sum)
      rw [ht2]
      exact congrArg round2 (((hocc d'.ticker).map _).sum_eq)

/-- Witness for C9: the theorem applied to a concrete two-post list and its
transposition. -/
theorem aggregateMentions_permutation_witness :
    ((aggregateMentions (fun _ => (0 : ℚ))
        [⟨"a", "u", 3, 0, ["GME"]⟩, ⟨"b", "v", 7, 1, ["TSLA"]⟩]).map
      (fun a => a.ticker)).Perm
      ((aggregateMentions (fun _ => (0 : ℚ))
          [⟨"b", "v", 7, 1, ["TSLA"]⟩, ⟨"a", "u", 3, 0, ["GME"]⟩]).map
        (fun a => a.ticker)) :=
  (aggregateMentions_permutation (fun _ => (0 : ℚ))
    [⟨"a", "u", 3, 0, ["GME"]⟩, ⟨"b", "v", 7, 1, ["TSLA"]⟩]
    [⟨"b", "v", 7, 1, ["TSLA"]⟩, ⟨"a", "u", 3, 0, ["GME"]⟩]
    (List.Perm.swap _ _ _)).1
